import Mathlib

/-!
# A fixed-size thread pool (`threadpool.cpp`)

The C++ class `ThreadPool` owns a vector of worker threads, a queue of
type-erased tasks, a mutex, a condition variable and a stop flag.

The development below embeds the class as a transition system.  Every access to
`tasks` and every access to `stop` happens while `queueMutex` is held, so each
locked block of the source is one atomic transition, and the threads of the
program interleave at the granularity of these blocks:

* `ThreadPool.enqueue`      the locked block of `enqueue` (lines 78-85);
* `ThreadPool.workerThread` one step of a worker: either its locked block
  (lines 24-32) or the call `task()` (line 34);
* `ThreadPool.destroy`      one step of `~ThreadPool` (lines 48-56).

`condition.wait(lock, pred)` is `while (!pred()) wait(lock);`.  A condition
variable may wake up spuriously and the predicate is re-tested under the lock,
so a worker sitting in `wait` can leave it exactly when the predicate holds; the
notifications themselves therefore need no state of their own.

The standard library objects the class is built from are modelled by their
documented behaviour: `std::packaged_task` (stores the value or the exception of
its callable in the shared state, and throws `future_error` when invoked a
second time), `std::future` and `std::thread::join` (throws `system_error` when
the thread is not joinable).
-/

namespace Pool

/-- Values returned by a task body. -/
abbrev Value := Nat

/-- Exceptions thrown by a task body. -/
abbrev Exn := Nat

/-- Result of running a callable: it returns a value or throws. -/
inductive Outcome where
  | value (v : Value)
  | raised (e : Exn)
  deriving DecidableEq, Repr

/-- The callable `bind(f, args...)` handed to `enqueue`, described by what a
call of it does. -/
abbrev Callable := Outcome

/-- A `shared_ptr<packaged_task<return_type()>>`: the address of the packaged
task on the heap.  The queue element `[task]() { (*task)(); }` captures exactly
this pointer, and the `future` returned by `enqueue` refers to the same shared
state. -/
abbrev TaskRef := Nat

/-- A `packaged_task` together with the shared state of its future. -/
structure PackagedTask where
  /-- The stored callable. -/
  body : Callable
  /-- The shared state: `none` until a result has been stored. -/
  result : Option Outcome
  /-- History variable: how many times the stored callable has been run. -/
  calls : Nat
  deriving DecidableEq, Repr

/-- Errors that the operations of the pool may raise. -/
inductive PoolError where
  /-- `runtime_error("enqueue on stopped ThreadPool")`. -/
  | stopped
  /-- `future_error(promise_already_satisfied)` of a packaged task. -/
  | alreadySatisfied
  /-- `system_error(invalid_argument)` of `thread::join`. -/
  | notJoinable
  deriving DecidableEq, Repr

/-- `packaged_task::operator()`: when the shared state already holds a result
the call throws; otherwise the callable is run and its value or its exception is
stored in the shared state (the exception is caught, it does not leave the
call). -/
def PackagedTask.invoke (p : PackagedTask) : Except PoolError PackagedTask :=
  match p.result with
  | some _ => .error .alreadySatisfied
  | none => .ok { p with result := some p.body, calls := p.calls + 1 }

/-- Where a worker thread stands in `workerThread`. -/
inductive WorkerPc where
  /-- At `condition.wait` (line 26), not holding a task. -/
  | waiting
  /-- Past the locked block with `task` in hand, about to call `task()`. -/
  | running (task : TaskRef)
  /-- The thread function has returned (line 28). -/
  | terminated
  /-- An exception left the thread function, or the queue was misused. -/
  | crashed
  deriving DecidableEq, Repr

/-- One element of `workers`: a `std::thread` and the point its thread function
has reached. -/
structure Worker where
  pc : WorkerPc
  joinable : Bool
  deriving DecidableEq, Repr

/-- Where the owner of the pool stands in `~ThreadPool`. -/
inductive DtorPc where
  /-- The destructor has not been entered. -/
  | notCalled
  /-- The stop flag is set, all waiters are notified, and the loop over
  `workers` is about to join the worker with index `k`. -/
  | joining (k : Nat)
  /-- The destructor has returned. -/
  | returned
  /-- A `join` threw `e`, which leaves the destructor. -/
  | threw (e : PoolError)
  deriving DecidableEq, Repr

/-- The state of a `ThreadPool` object and of the threads that use it. -/
structure ThreadPool where
  workers : List Worker
  tasks : List TaskRef
  stop : Bool
  /-- The packaged tasks allocated by `make_shared`. -/
  heap : List PackagedTask
  /-- Program counter of the destructor. -/
  dtor : DtorPc
  /-- History variable: the tasks accepted by `enqueue`, in order. -/
  accepted : List TaskRef
  /-- History variable: the tasks removed from the queue, in order. -/
  dequeued : List TaskRef
  deriving DecidableEq, Repr

/-- The loop of the constructor; the first argument is the number of iterations
left, each of which does `workers.emplace_back(&ThreadPool::workerThread, this)`. -/
def ThreadPool.spawn : Nat → List Worker → List Worker
  | 0, ws => ws
  | k + 1, ws => ThreadPool.spawn k (ws ++ [{ pc := .waiting, joinable := true }])

/-- The pool right after `ThreadPool(numThreads)` with every worker at its first
`condition.wait`. -/
def ThreadPool.init (numThreads : Nat) : ThreadPool :=
  { workers := ThreadPool.spawn numThreads []
    tasks := []
    stop := false
    heap := []
    dtor := .notCalled
    accepted := []
    dequeued := [] }

/-- The constructor `ThreadPool(size_t numThreads) : stop(false)`.  Its body has
no `throw`; failure of thread creation is outside the model. -/
def ThreadPool.new (numThreads : Nat) : Except PoolError ThreadPool :=
  .ok (ThreadPool.init numThreads)

/-- The member function `enqueue`: the packaged task and its future are created
first; under the lock the call throws when `stop` is set and otherwise appends
the wrapper of the task to `tasks`; the future is returned. -/
def ThreadPool.enqueue (s : ThreadPool) (f : Callable) :
    Except PoolError (TaskRef × ThreadPool) :=
  let task : PackagedTask := { body := f, result := none, calls := 0 }
  let res : TaskRef := s.heap.length
  if s.stop then
    .error .stopped
  else
    .ok (res, { s with
      heap := s.heap ++ [task]
      tasks := s.tasks ++ [res]
      accepted := s.accepted ++ [res] })

/-- What the locked block of `workerThread` does. -/
inductive Dequeue where
  /-- The wait predicate is false: the worker stays in `condition.wait`. -/
  | blocked
  /-- The terminal signal: `return`. -/
  | terminal
  /-- The head `task` was moved out and popped; `rest` is the queue left. -/
  | task (task : TaskRef) (rest : List TaskRef)
  /-- The method `front()` was called on an empty queue. -/
  | emptyFront
  deriving DecidableEq, Repr

/-- The locked block of `workerThread` (lines 24-32) as a function of the stop
flag and the queue. -/
def ThreadPool.workerThread.locked (stop : Bool) (tasks : List TaskRef) : Dequeue :=
  if !(stop || !tasks.isEmpty) then
    .blocked
  else if stop && tasks.isEmpty then
    .terminal
  else
    match tasks.head? with
    | none => .emptyFront
    | some t => .task t tasks.tail

/-- One step of worker `i` in `workerThread`: from `waiting` the locked block,
from `running` the call `task()`, which runs the wrapper `[task]() { (*task)(); }`
and so invokes the packaged task the wrapper points to.  The result is `none`
when the worker cannot move: it is blocked in `wait`, or its thread function is
over.  (The wrapper owns its packaged task through the `shared_ptr`, so a
dangling `TaskRef` has no counterpart in the program and gets no step.) -/
def ThreadPool.workerThread (s : ThreadPool) (i : Nat) : Option ThreadPool :=
  match s.workers[i]? with
  | none => none
  | some w =>
    match w.pc with
    | .waiting =>
      match ThreadPool.workerThread.locked s.stop s.tasks with
      | .blocked => none
      | .terminal => some { s with workers := s.workers.set i { w with pc := .terminated } }
      | .task t rest =>
        some { s with
          workers := s.workers.set i { w with pc := .running t }
          tasks := rest
          dequeued := s.dequeued ++ [t] }
      | .emptyFront => some { s with workers := s.workers.set i { w with pc := .crashed } }
    | .running t =>
      match s.heap[t]? with
      | none => none
      | some p =>
        match p.invoke with
        | .ok p' =>
          some { s with
            heap := s.heap.set t p'
            workers := s.workers.set i { w with pc := .waiting } }
        | .error _ => some { s with workers := s.workers.set i { w with pc := .crashed } }
    | .terminated => none
    | .crashed => none

/-- One step of `~ThreadPool`.  Entering it sets `stop` under the lock and
notifies all waiters; each further step is one `worker.join()`, which blocks
until the thread function has returned and throws when the thread is not
joinable; after the last worker the destructor returns. -/
def ThreadPool.destroy (s : ThreadPool) : Option ThreadPool :=
  match s.dtor with
  | .notCalled => some { s with stop := true, dtor := .joining 0 }
  | .joining k =>
    match s.workers[k]? with
    | none => some { s with dtor := .returned }
    | some w =>
      if !w.joinable then
        some { s with dtor := .threw .notJoinable }
      else if w.pc = .terminated then
        some { s with
          workers := s.workers.set k { w with joinable := false }
          dtor := .joining (k + 1) }
      else
        none
  | .returned => none
  | .threw _ => none

/-- `future::get` on the future of task `t`: `none` while the shared state is
not ready, otherwise the stored value, or the stored exception re-raised. -/
def ThreadPool.get (s : ThreadPool) (t : TaskRef) : Option (Except Exn Value) :=
  match s.heap[t]? with
  | none => none
  | some p =>
    match p.result with
    | none => none
    | some (.value v) => some (.ok v)
    | some (.raised e) => some (.error e)

/-- The moves of the threads of the program. -/
inductive Action where
  /-- Some thread calls `enqueue` with the given callable. -/
  | enqueue (f : Callable)
  /-- Worker `i` takes its next step. -/
  | worker (i : Nat)
  /-- The owner of the pool takes its next step in the destructor. -/
  | destroy
  deriving DecidableEq, Repr

/-- The step function of the pool.  A rejected `enqueue` throws to its caller
and leaves the pool as it was. -/
def step (a : Action) (s : ThreadPool) : Option ThreadPool :=
  match a with
  | .enqueue f =>
    match s.enqueue f with
    | .ok (_, s') => some s'
    | .error _ => some s
  | .worker i => s.workerThread i
  | .destroy => s.destroy

/-- Run a schedule, one action after the other. -/
def exec : List Action → ThreadPool → Option ThreadPool
  | [], s => some s
  | a :: rest, s =>
    match step a s with
    | none => none
    | some s' => exec rest s'

/-- The step relation. -/
def Step (s s' : ThreadPool) : Prop := ∃ a, step a s = some s'

/-- State `s` is reachable from `s₀` when some schedule leads from `s₀` to `s`. -/
def Reachable (s₀ s : ThreadPool) : Prop := ∃ sched, exec sched s₀ = some s

/-- The schedule of `main`: eight calls of `enqueue` on a pool of four workers,
the workers run the tasks two rounds of four, then the pool is destroyed. -/
def mainSchedule : List Action :=
  (List.range 8).map (fun i => Action.enqueue (.value i))
    ++ [.worker 0, .worker 1, .worker 2, .worker 3]
    ++ [.worker 2, .worker 0, .worker 3, .worker 1]
    ++ [.worker 0, .worker 1, .worker 2, .worker 3]
    ++ [.worker 3, .worker 2, .worker 1, .worker 0]
    ++ [.destroy]
    ++ [.worker 1, .worker 0, .worker 3, .worker 2]
    ++ [.destroy, .destroy, .destroy, .destroy, .destroy]

/-! ## Concrete states -/

/-- The pool of `main` once `mainSchedule` has run. -/
def mainFinal : ThreadPool :=
  { workers := List.replicate 4 { pc := .terminated, joinable := false }
    tasks := []
    stop := true
    heap := (List.range 8).map (fun i =>
      { body := .value i, result := some (.value i), calls := 1 })
    dtor := .returned
    accepted := List.range 8
    dequeued := List.range 8 }

/-- A pool of one worker whose destructor has just been entered. -/
def stoppingOne : ThreadPool :=
  { workers := [{ pc := .waiting, joinable := true }]
    tasks := []
    stop := true
    heap := []
    dtor := .joining 0
    accepted := []
    dequeued := [] }

/-- A pool of one worker whose destructor has returned. -/
def shutDownOne : ThreadPool :=
  { workers := [{ pc := .terminated, joinable := false }]
    tasks := []
    stop := true
    heap := []
    dtor := .returned
    accepted := []
    dequeued := [] }

/-- A pool of one worker that has a throwing task in hand and another task
queued behind it. -/
def failingOne : ThreadPool :=
  { workers := [{ pc := .running 0, joinable := true }]
    tasks := [1]
    stop := false
    heap := [{ body := .raised 7, result := none, calls := 0 },
      { body := .value 1, result := none, calls := 0 }]
    dtor := .notCalled
    accepted := [0, 1]
    dequeued := [0] }

/-- A pool of two workers, three accepted tasks, two of them dequeued. -/
def busyTwo : ThreadPool :=
  { workers := [{ pc := .running 1, joinable := true }, { pc := .running 0, joinable := true }]
    tasks := [2]
    stop := false
    heap := List.replicate 3 { body := .value 0, result := none, calls := 0 }
    dtor := .notCalled
    accepted := [0, 1, 2]
    dequeued := [0, 1] }

/-- A pool of one worker that has finished task `0` and has task `1` in hand. -/
def serialOne : ThreadPool :=
  { workers := [{ pc := .running 1, joinable := true }]
    tasks := []
    stop := false
    heap := [{ body := .value 10, result := some (.value 10), calls := 1 },
      { body := .value 11, result := none, calls := 0 }]
    dtor := .notCalled
    accepted := [0, 1]
    dequeued := [0, 1] }

/-! ## The invariant of the pool -/

/-- Worker `i` of `ws` has task `t` in hand. -/
def Holds (ws : List Worker) (i : Nat) (t : TaskRef) : Prop :=
  ∃ w, ws[i]? = some w ∧ w.pc = .running t

/-- The callable of the packaged task at `t` has been run `n` times. -/
def Calls (heap : List PackagedTask) (t : TaskRef) (n : Nat) : Prop :=
  ∃ p, heap[t]? = some p ∧ p.calls = n

/-- What the program counter of the destructor says about the stop flag and
about the workers. -/
def DtorOk : DtorPc → Bool → List Worker → Prop
  | .notCalled, stop, ws => stop = false ∧ ∀ (i : Nat) (w : Worker), ws[i]? = some w → w.joinable = true
  | .joining k, stop, ws => stop = true ∧ ∀ (i : Nat) (w : Worker), ws[i]? = some w →
      (i < k → w.pc = .terminated ∧ w.joinable = false) ∧ (k ≤ i → w.joinable = true)
  | .returned, stop, ws =>
      stop = true ∧ ∀ (i : Nat) (w : Worker), ws[i]? = some w → w.pc = .terminated ∧ w.joinable = false
  | .threw _, _, _ => False

/-- The invariant kept by every step of the pool. -/
structure Inv (s : ThreadPool) : Prop where
  queue : s.accepted = s.dequeued ++ s.tasks
  ids : s.accepted = List.range s.heap.length
  cell : ∀ (t : TaskRef) (p : PackagedTask), s.heap[t]? = some p →
    p.calls ≤ 1 ∧ p.result = if p.calls = 0 then none else some p.body
  held : ∀ i t, Holds s.workers i t → t ∈ s.dequeued ∧ Calls s.heap t 0
  uniq : ∀ i j t, Holds s.workers i t → Holds s.workers j t → i = j
  done : ∀ t, t ∈ s.dequeued → Calls s.heap t 1 ∨ ∃ i, Holds s.workers i t
  pending : ∀ t, t ∈ s.tasks → Calls s.heap t 0
  alive : ∀ (i : Nat) (w : Worker), s.workers[i]? = some w → w.pc ≠ .crashed
  exited : ∀ (i : Nat) (w : Worker), s.workers[i]? = some w → w.pc = .terminated → s.stop = true ∧ s.tasks = []
  dtor : DtorOk s.dtor s.stop s.workers

/-- In a pool with a single worker the task in hand is the last one dequeued. -/
def Serial (s : ThreadPool) : Prop :=
  ∀ w t, s.workers = [w] → w.pc = .running t → ∃ l, s.dequeued = l ++ [t]

/-! ## Lists -/

theorem getElem?_set_iff {α : Type} {l : List α} {i j : Nat} {a b x : α}
    (h : l[i]? = some a) :
    (l.set i b)[j]? = some x ↔ (j = i ∧ x = b) ∨ (j ≠ i ∧ l[j]? = some x) := by
  have hi : i < l.length := (List.getElem?_eq_some_iff.mp h).1
  by_cases hji : j = i
  · subst hji
    rw [List.getElem?_set_self hi]
    simp [eq_comm]
  · rw [List.getElem?_set_ne (Ne.symm hji)]
    simp [hji]

theorem getElem?_concat_iff {α : Type} {l : List α} {j : Nat} {a x : α} :
    (l ++ [a])[j]? = some x ↔ l[j]? = some x ∨ (j = l.length ∧ x = a) := by
  rcases Nat.lt_trichotomy j l.length with hlt | heq | hgt
  · rw [List.getElem?_append_left hlt]
    constructor
    · exact Or.inl
    · rintro (h | ⟨h, _⟩)
      · exact h
      · omega
  · subst heq
    rw [List.getElem?_concat_length, List.getElem?_eq_none (Nat.le_refl _)]
    simp [eq_comm]
  · rw [List.getElem?_eq_none (by simp; omega), List.getElem?_eq_none (by omega)]
    constructor
    · intro h; cases h
    · rintro (h | ⟨h, _⟩)
      · cases h
      · omega

theorem spawn_eq (k : Nat) (ws : List Worker) :
    ThreadPool.spawn k ws = ws ++ List.replicate k { pc := .waiting, joinable := true } := by
  induction k generalizing ws with
  | zero => simp [ThreadPool.spawn]
  | succ k ih =>
    rw [ThreadPool.spawn, ih, List.append_assoc]
    rfl

theorem init_workers (n : Nat) :
    (ThreadPool.init n).workers = List.replicate n { pc := .waiting, joinable := true } := by
  simp [ThreadPool.init, spawn_eq]

theorem init_worker_get {n i : Nat} {w : Worker} (h : (ThreadPool.init n).workers[i]? = some w) :
    w = { pc := .waiting, joinable := true } := by
  rw [init_workers] at h
  have hm : w ∈ List.replicate n ({ pc := .waiting, joinable := true } : Worker) :=
    List.mem_iff_getElem?.mpr ⟨i, h⟩
  exact (List.mem_replicate.mp hm).2

/-! ## Reachability -/

theorem reachable_iff (s₀ s : ThreadPool) :
    Reachable s₀ s ↔ Relation.ReflTransGen Step s₀ s := by
  constructor
  · rintro ⟨sched, hs⟩
    induction sched generalizing s₀ with
    | nil =>
      simp only [exec] at hs
      cases hs
      exact Relation.ReflTransGen.refl
    | cons a rest ih =>
      simp only [exec] at hs
      cases hst : step a s₀ with
      | none => simp [hst] at hs
      | some s₁ =>
        simp only [hst] at hs
        exact Relation.ReflTransGen.head ⟨a, hst⟩ (ih s₁ hs)
  · intro h
    induction h using Relation.ReflTransGen.head_induction_on with
    | refl => exact ⟨[], rfl⟩
    | head hstep _ ih =>
      obtain ⟨a, ha⟩ := hstep
      obtain ⟨sched, hs⟩ := ih
      exact ⟨a :: sched, by simp [exec, ha, hs]⟩

/-! ## The shape of each step -/

theorem locked_cases (stop : Bool) (tasks : List TaskRef) :
    (stop = false ∧ tasks = [] ∧ ThreadPool.workerThread.locked stop tasks = .blocked) ∨
    (stop = true ∧ tasks = [] ∧ ThreadPool.workerThread.locked stop tasks = .terminal) ∨
    (∃ t rest, tasks = t :: rest ∧
      ThreadPool.workerThread.locked stop tasks = .task t rest) := by
  cases stop <;> cases tasks <;> simp [ThreadPool.workerThread.locked]

theorem enqueue_cases {s s' : ThreadPool} {f : Callable} (h : step (.enqueue f) s = some s') :
    (s.stop = true ∧ s' = s) ∨
    (s.stop = false ∧ s' = { s with
      heap := s.heap ++ [{ body := f, result := none, calls := 0 }]
      tasks := s.tasks ++ [s.heap.length]
      accepted := s.accepted ++ [s.heap.length] }) := by
  unfold step ThreadPool.enqueue at h
  cases hs : s.stop
  · right
    simp only [hs] at h
    exact ⟨rfl, (Option.some.inj h).symm⟩
  · left
    simp only [hs] at h
    exact ⟨rfl, (Option.some.inj h).symm⟩

theorem workerThread_cases {s s' : ThreadPool} {i : Nat} (h : s.workerThread i = some s') :
    ∃ w, s.workers[i]? = some w ∧
      ((w.pc = .waiting ∧ s.stop = true ∧ s.tasks = [] ∧
          s' = { s with workers := s.workers.set i { w with pc := .terminated } }) ∨
       (∃ t rest, w.pc = .waiting ∧ s.tasks = t :: rest ∧
          s' = { s with
            workers := s.workers.set i { w with pc := .running t }
            tasks := rest
            dequeued := s.dequeued ++ [t] }) ∨
       (∃ t p, w.pc = .running t ∧ s.heap[t]? = some p ∧ p.result = none ∧
          s' = { s with
            heap := s.heap.set t { p with result := some p.body, calls := p.calls + 1 }
            workers := s.workers.set i { w with pc := .waiting } }) ∨
       (∃ t p r, w.pc = .running t ∧ s.heap[t]? = some p ∧ p.result = some r ∧
          s' = { s with workers := s.workers.set i { w with pc := .crashed } })) := by
  unfold ThreadPool.workerThread at h
  cases hw : s.workers[i]? with
  | none => simp [hw] at h
  | some w =>
    refine ⟨w, rfl, ?_⟩
    simp only [hw] at h
    cases hpc : w.pc with
    | waiting =>
      simp only [hpc] at h
      rcases locked_cases s.stop s.tasks with ⟨_, _, hl⟩ | ⟨hs, ht, hl⟩ | ⟨t, rest, ht, hl⟩
      · simp [hl] at h
      · simp only [hl] at h
        exact Or.inl ⟨rfl, hs, ht, (Option.some.inj h).symm⟩
      · simp only [hl] at h
        exact Or.inr (Or.inl ⟨t, rest, rfl, ht, (Option.some.inj h).symm⟩)
    | running t =>
      simp only [hpc] at h
      cases hp : s.heap[t]? with
      | none => simp [hp] at h
      | some p =>
        simp only [hp] at h
        cases hr : p.result with
        | none =>
          simp only [PackagedTask.invoke, hr] at h
          exact Or.inr (Or.inr (Or.inl ⟨t, p, rfl, hp, hr, (Option.some.inj h).symm⟩))
        | some r =>
          simp only [PackagedTask.invoke, hr] at h
          exact Or.inr (Or.inr (Or.inr ⟨t, p, r, rfl, hp, hr, (Option.some.inj h).symm⟩))
    | terminated => simp [hpc] at h
    | crashed => simp [hpc] at h

theorem destroy_cases {s s' : ThreadPool} (h : s.destroy = some s') :
    (s.dtor = .notCalled ∧ s' = { s with stop := true, dtor := .joining 0 }) ∨
    (∃ k, s.dtor = .joining k ∧ s.workers[k]? = none ∧ s' = { s with dtor := .returned }) ∨
    (∃ k w, s.dtor = .joining k ∧ s.workers[k]? = some w ∧ w.joinable = false ∧
      s' = { s with dtor := .threw .notJoinable }) ∨
    (∃ k w, s.dtor = .joining k ∧ s.workers[k]? = some w ∧ w.joinable = true ∧
      w.pc = .terminated ∧
      s' = { s with
        workers := s.workers.set k { w with joinable := false }
        dtor := .joining (k + 1) }) := by
  unfold ThreadPool.destroy at h
  cases hd : s.dtor with
  | notCalled =>
    simp only [hd] at h
    exact Or.inl ⟨rfl, (Option.some.inj h).symm⟩
  | joining k =>
    simp only [hd] at h
    cases hw : s.workers[k]? with
    | none =>
      simp only [hw] at h
      exact Or.inr (Or.inl ⟨k, rfl, hw, (Option.some.inj h).symm⟩)
    | some w =>
      simp only [hw] at h
      cases hj : w.joinable with
      | false =>
        simp [hj] at h
        exact Or.inr (Or.inr (Or.inl ⟨k, w, rfl, hw, hj, h.symm⟩))
      | true =>
        by_cases hpc : w.pc = .terminated
        · simp [hj, hpc] at h
          refine Or.inr (Or.inr (Or.inr ⟨k, w, rfl, hw, hj, hpc, ?_⟩))
          rw [hpc]
          exact h.symm
        · simp [hj, hpc] at h
  | returned => simp [hd] at h
  | threw e => simp [hd] at h

/-! ## Workers and heap cells under an update -/

theorem holds_set {ws : List Worker} {i j : Nat} {w w' : Worker} {t : TaskRef}
    (h : ws[i]? = some w) :
    Holds (ws.set i w') j t ↔ (j = i ∧ w'.pc = .running t) ∨ (j ≠ i ∧ Holds ws j t) := by
  unfold Holds
  constructor
  · rintro ⟨x, hx, hpc⟩
    rcases (getElem?_set_iff h).mp hx with ⟨hj, rfl⟩ | ⟨hj, hx'⟩
    · exact Or.inl ⟨hj, hpc⟩
    · exact Or.inr ⟨hj, x, hx', hpc⟩
  · rintro (⟨hj, hpc⟩ | ⟨hj, x, hx, hpc⟩)
    · exact ⟨w', (getElem?_set_iff h).mpr (Or.inl ⟨hj, rfl⟩), hpc⟩
    · exact ⟨x, (getElem?_set_iff h).mpr (Or.inr ⟨hj, hx⟩), hpc⟩

theorem holds_set_joinable {ws : List Worker} {i j : Nat} {w : Worker} {b : Bool}
    {t : TaskRef} (h : ws[i]? = some w) :
    Holds (ws.set i { w with joinable := b }) j t ↔ Holds ws j t := by
  rw [holds_set h]
  constructor
  · rintro (⟨hj, hr⟩ | ⟨_, hh⟩)
    · subst hj
      exact ⟨w, h, hr⟩
    · exact hh
  · intro hh
    by_cases hj : j = i
    · subst hj
      obtain ⟨x, hx, hr⟩ := hh
      rw [h] at hx
      cases hx
      exact Or.inl ⟨rfl, hr⟩
    · exact Or.inr ⟨hj, hh⟩

theorem calls_append {heap : List PackagedTask} {c : PackagedTask} {t : TaskRef} {n : Nat}
    (h : Calls heap t n) : Calls (heap ++ [c]) t n := by
  obtain ⟨p, hp, hn⟩ := h
  exact ⟨p, getElem?_concat_iff.mpr (Or.inl hp), hn⟩

theorem calls_set_ne {heap : List PackagedTask} {t t' : TaskRef} {q : PackagedTask} {n : Nat}
    (hne : t' ≠ t) (h : Calls heap t' n) : Calls (heap.set t q) t' n := by
  obtain ⟨p, hp, hn⟩ := h
  exact ⟨p, by rw [List.getElem?_set_ne (Ne.symm hne)]; exact hp, hn⟩

theorem calls_set_self {heap : List PackagedTask} {t : TaskRef} {p q : PackagedTask}
    (h : heap[t]? = some p) : Calls (heap.set t q) t q.calls :=
  ⟨q, (getElem?_set_iff h).mpr (Or.inl ⟨rfl, rfl⟩), rfl⟩

theorem Inv.fresh {s : ThreadPool} (h : Inv s) {t : TaskRef}
    (hd : t ∈ s.dequeued) (hq : t ∈ s.tasks) : False := by
  have hn : (s.dequeued ++ s.tasks).Nodup := by
    rw [← h.queue, h.ids]
    exact List.nodup_range _
  exact List.disjoint_of_nodup_append hn hd hq

theorem DtorOk.set_pc {d : DtorPc} {stop : Bool} {ws : List Worker} {i : Nat} {w : Worker}
    {pc' : WorkerPc} (h : DtorOk d stop ws) (hw : ws[i]? = some w)
    (hne : w.pc ≠ .terminated) : DtorOk d stop (ws.set i { w with pc := pc' }) := by
  cases d with
  | notCalled =>
    simp only [DtorOk] at h ⊢
    refine ⟨h.1, fun j x hx => ?_⟩
    rcases (getElem?_set_iff hw).mp hx with ⟨_, rfl⟩ | ⟨_, hx'⟩
    · exact h.2 i w hw
    · exact h.2 j x hx'
  | joining k =>
    simp only [DtorOk] at h ⊢
    refine ⟨h.1, fun j x hx => ?_⟩
    rcases (getElem?_set_iff hw).mp hx with ⟨hj, rfl⟩ | ⟨_, hx'⟩
    · subst hj
      exact ⟨fun hlt => absurd ((h.2 j w hw).1 hlt).1 hne, fun hle => (h.2 j w hw).2 hle⟩
    · exact h.2 j x hx'
  | returned =>
    simp only [DtorOk] at h
    exact absurd (h.2 i w hw).1 hne
  | threw e => exact h

/-! ## Every step keeps the invariant -/

theorem Inv.init (n : Nat) : Inv (ThreadPool.init n) where
  queue := rfl
  ids := rfl
  cell := by
    intro t p hp
    simp [ThreadPool.init] at hp
  held := by
    rintro i t ⟨w, hw, hpc⟩
    rw [init_worker_get hw] at hpc
    cases hpc
  uniq := by
    rintro i j t ⟨w, hw, hpc⟩ _
    rw [init_worker_get hw] at hpc
    cases hpc
  done := by
    intro t ht
    simp [ThreadPool.init] at ht
  pending := by
    intro t ht
    simp [ThreadPool.init] at ht
  alive := by
    intro i w hw
    rw [init_worker_get hw]
    simp
  exited := by
    intro i w hw hpc
    rw [init_worker_get hw] at hpc
    cases hpc
  dtor := by
    show DtorOk .notCalled false _
    exact ⟨rfl, fun i w hw => by rw [init_worker_get hw]⟩

theorem Inv.accept {s : ThreadPool} (h : Inv s) (f : Callable) (hs : s.stop = false) :
    Inv { s with
      heap := s.heap ++ [{ body := f, result := none, calls := 0 }]
      tasks := s.tasks ++ [s.heap.length]
      accepted := s.accepted ++ [s.heap.length] } where
  queue := by simp [h.queue]
  ids := by simp [h.ids, List.range_succ]
  cell := by
    intro t p hp
    rcases getElem?_concat_iff.mp hp with hp | ⟨_, rfl⟩
    · exact h.cell t p hp
    · simp
  held := fun i t hh => ⟨(h.held i t hh).1, calls_append (h.held i t hh).2⟩
  uniq := h.uniq
  done := by
    intro t ht
    rcases h.done t ht with hc | hw
    · exact Or.inl (calls_append hc)
    · exact Or.inr hw
  pending := by
    intro t ht
    rcases List.mem_append.mp ht with ht | ht
    · exact calls_append (h.pending t ht)
    · rw [List.mem_singleton] at ht
      subst ht
      exact ⟨_, List.getElem?_concat_length _ _, rfl⟩
  alive := h.alive
  exited := by
    intro i w hw hpc
    have hst := (h.exited i w hw hpc).1
    rw [hs] at hst
    cases hst
  dtor := h.dtor

theorem Inv.terminate {s : ThreadPool} (h : Inv s) {i : Nat} {w : Worker}
    (hw : s.workers[i]? = some w) (hpc : w.pc = .waiting)
    (hs : s.stop = true) (ht : s.tasks = []) :
    Inv { s with workers := s.workers.set i { w with pc := .terminated } } where
  queue := h.queue
  ids := h.ids
  cell := h.cell
  held := by
    intro j t hh
    rcases (holds_set hw).mp hh with ⟨_, hr⟩ | ⟨_, hh'⟩
    · cases hr
    · exact h.held j t hh'
  uniq := by
    intro j k t hj hk
    rcases (holds_set hw).mp hj with ⟨_, hr⟩ | ⟨_, hj'⟩
    · cases hr
    rcases (holds_set hw).mp hk with ⟨_, hr⟩ | ⟨_, hk'⟩
    · cases hr
    exact h.uniq j k t hj' hk'
  done := by
    intro t htd
    rcases h.done t htd with hc | ⟨j, hj⟩
    · exact Or.inl hc
    · refine Or.inr ⟨j, (holds_set hw).mpr (Or.inr ⟨?_, hj⟩)⟩
      rintro rfl
      obtain ⟨x, hx, hr⟩ := hj
      rw [hw] at hx
      cases hx
      rw [hpc] at hr
      cases hr
  pending := h.pending
  alive := by
    intro j x hx
    rcases (getElem?_set_iff hw).mp hx with ⟨_, rfl⟩ | ⟨_, hx'⟩
    · simp
    · exact h.alive j x hx'
  exited := fun _ _ _ _ => ⟨hs, ht⟩
  dtor := DtorOk.set_pc h.dtor hw (by rw [hpc]; simp)

theorem Inv.dequeue {s : ThreadPool} (h : Inv s) {i : Nat} {w : Worker} {t : TaskRef}
    {rest : List TaskRef} (hw : s.workers[i]? = some w) (hpc : w.pc = .waiting)
    (ht : s.tasks = t :: rest) :
    Inv { s with
      workers := s.workers.set i { w with pc := .running t }
      tasks := rest
      dequeued := s.dequeued ++ [t] } where
  queue := by simp [h.queue, ht]
  ids := h.ids
  cell := h.cell
  held := by
    intro j t' hh
    rcases (holds_set hw).mp hh with ⟨_, hr⟩ | ⟨_, hh'⟩
    · cases hr
      exact ⟨by simp, h.pending t (by simp [ht])⟩
    · exact ⟨List.mem_append_left _ (h.held j t' hh').1, (h.held j t' hh').2⟩
  uniq := by
    intro j k t' hj hk
    have hold : ∀ m, Holds s.workers m t → False := fun m hm =>
      h.fresh (h.held m t hm).1 (by simp [ht])
    rcases (holds_set hw).mp hj with ⟨hji, hr⟩ | ⟨_, hj'⟩ <;>
      rcases (holds_set hw).mp hk with ⟨hki, hr'⟩ | ⟨_, hk'⟩
    · rw [hji, hki]
    · cases hr
      exact (hold k hk').elim
    · cases hr'
      exact (hold j hj').elim
    · exact h.uniq j k t' hj' hk'
  done := by
    intro t' htd
    rcases List.mem_append.mp htd with htd | htd
    · rcases h.done t' htd with hc | ⟨j, hj⟩
      · exact Or.inl hc
      · refine Or.inr ⟨j, (holds_set hw).mpr (Or.inr ⟨?_, hj⟩)⟩
        rintro rfl
        obtain ⟨x, hx, hr⟩ := hj
        rw [hw] at hx
        cases hx
        rw [hpc] at hr
        cases hr
    · rw [List.mem_singleton] at htd
      subst htd
      exact Or.inr ⟨i, (holds_set hw).mpr (Or.inl ⟨rfl, rfl⟩)⟩
  pending := fun t' ht' => h.pending t' (by rw [ht]; exact List.mem_cons_of_mem _ ht')
  alive := by
    intro j x hx
    rcases (getElem?_set_iff hw).mp hx with ⟨_, rfl⟩ | ⟨_, hx'⟩
    · simp
    · exact h.alive j x hx'
  exited := by
    intro j x hx hx'
    rcases (getElem?_set_iff hw).mp hx with ⟨_, rfl⟩ | ⟨_, hxo⟩
    · cases hx'
    · have hnil := (h.exited j x hxo hx').2
      rw [ht] at hnil
      cases hnil
  dtor := DtorOk.set_pc h.dtor hw (by rw [hpc]; simp)

theorem Inv.held_cell {s : ThreadPool} (h : Inv s) {i : Nat} {w : Worker} {t : TaskRef}
    {p : PackagedTask} (hw : s.workers[i]? = some w) (hpc : w.pc = .running t)
    (hp : s.heap[t]? = some p) : p.calls = 0 ∧ p.result = none := by
  obtain ⟨q, hq, hc⟩ := (h.held i t ⟨w, hw, hpc⟩).2
  rw [hp] at hq
  cases hq
  refine ⟨hc, ?_⟩
  rw [(h.cell t p hp).2, if_pos hc]

theorem Inv.run {s : ThreadPool} (h : Inv s) {i : Nat} {w : Worker} {t : TaskRef}
    {p : PackagedTask} (hw : s.workers[i]? = some w) (hpc : w.pc = .running t)
    (hp : s.heap[t]? = some p) :
    Inv { s with
      heap := s.heap.set t { p with result := some p.body, calls := p.calls + 1 }
      workers := s.workers.set i { w with pc := .waiting } } where
  queue := h.queue
  ids := by simp [h.ids]
  cell := by
    intro t' q hq
    rcases (getElem?_set_iff hp).mp hq with ⟨_, rfl⟩ | ⟨_, hq'⟩
    · simp [(h.held_cell hw hpc hp).1]
    · exact h.cell t' q hq'
  held := by
    intro j t' hh
    rcases (holds_set hw).mp hh with ⟨_, hr⟩ | ⟨hji, hh'⟩
    · cases hr
    · have hne : t' ≠ t := by
        rintro rfl
        exact hji (h.uniq j i t' hh' ⟨w, hw, hpc⟩)
      exact ⟨(h.held j t' hh').1, calls_set_ne hne (h.held j t' hh').2⟩
  uniq := by
    intro j k t' hj hk
    rcases (holds_set hw).mp hj with ⟨_, hr⟩ | ⟨_, hj'⟩
    · cases hr
    rcases (holds_set hw).mp hk with ⟨_, hr⟩ | ⟨_, hk'⟩
    · cases hr
    exact h.uniq j k t' hj' hk'
  done := by
    intro t' htd
    by_cases hne : t' = t
    · subst hne
      refine Or.inl ⟨_, (getElem?_set_iff hp).mpr (Or.inl ⟨rfl, rfl⟩), ?_⟩
      simp [(h.held_cell hw hpc hp).1]
    · rcases h.done t' htd with hc | ⟨j, hj⟩
      · exact Or.inl (calls_set_ne hne hc)
      · refine Or.inr ⟨j, (holds_set hw).mpr (Or.inr ⟨?_, hj⟩)⟩
        rintro rfl
        obtain ⟨x, hx, hr⟩ := hj
        rw [hw] at hx
        cases hx
        rw [hpc] at hr
        cases hr
        exact hne rfl
  pending := by
    intro t' ht'
    have hne : t' ≠ t := by
      rintro rfl
      exact h.fresh (h.held i t' ⟨w, hw, hpc⟩).1 ht'
    exact calls_set_ne hne (h.pending t' ht')
  alive := by
    intro j x hx
    rcases (getElem?_set_iff hw).mp hx with ⟨_, rfl⟩ | ⟨_, hx'⟩
    · simp
    · exact h.alive j x hx'
  exited := by
    intro j x hx hx'
    rcases (getElem?_set_iff hw).mp hx with ⟨_, rfl⟩ | ⟨_, hxo⟩
    · cases hx'
    · exact h.exited j x hxo hx'
  dtor := DtorOk.set_pc h.dtor hw (by rw [hpc]; simp)

theorem Inv.stopping {s : ThreadPool} (h : Inv s) (hd : s.dtor = .notCalled) :
    Inv { s with stop := true, dtor := .joining 0 } where
  queue := h.queue
  ids := h.ids
  cell := h.cell
  held := h.held
  uniq := h.uniq
  done := h.done
  pending := h.pending
  alive := h.alive
  exited := by
    intro i w hw hpc
    have hdt := h.dtor
    rw [hd] at hdt
    have hst := (h.exited i w hw hpc).1
    rw [hdt.1] at hst
    cases hst
  dtor := by
    have hdt := h.dtor
    rw [hd] at hdt
    exact ⟨rfl, fun i w hw => ⟨fun hlt => absurd hlt (Nat.not_lt_zero i), fun _ => hdt.2 i w hw⟩⟩

theorem Inv.joinable {s : ThreadPool} (h : Inv s) {k : Nat} {w : Worker}
    (hd : s.dtor = .joining k) (hw : s.workers[k]? = some w) : w.joinable = true := by
  have hdt := h.dtor
  rw [hd] at hdt
  exact (hdt.2 k w hw).2 (Nat.le_refl k)

theorem Inv.join {s : ThreadPool} (h : Inv s) {k : Nat} {w : Worker}
    (hd : s.dtor = .joining k) (hw : s.workers[k]? = some w) (hpc : w.pc = .terminated) :
    Inv { s with
      workers := s.workers.set k { w with joinable := false }
      dtor := .joining (k + 1) } where
  queue := h.queue
  ids := h.ids
  cell := h.cell
  held := fun j t hh => h.held j t ((holds_set_joinable hw).mp hh)
  uniq := fun i j t hi hj =>
    h.uniq i j t ((holds_set_joinable hw).mp hi) ((holds_set_joinable hw).mp hj)
  done := by
    intro t ht
    rcases h.done t ht with hc | ⟨j, hj⟩
    · exact Or.inl hc
    · exact Or.inr ⟨j, (holds_set_joinable hw).mpr hj⟩
  pending := h.pending
  alive := by
    intro j x hx
    rcases (getElem?_set_iff hw).mp hx with ⟨_, rfl⟩ | ⟨_, hx'⟩
    · exact h.alive k w hw
    · exact h.alive j x hx'
  exited := by
    intro j x hx hx'
    rcases (getElem?_set_iff hw).mp hx with ⟨_, rfl⟩ | ⟨_, hxo⟩
    · exact h.exited k w hw hpc
    · exact h.exited j x hxo hx'
  dtor := by
    have hdt := h.dtor
    rw [hd] at hdt
    refine ⟨hdt.1, fun j x hx => ?_⟩
    rcases (getElem?_set_iff hw).mp hx with ⟨hj, rfl⟩ | ⟨hj, hxo⟩
    · exact ⟨fun _ => ⟨hpc, rfl⟩, fun hle => by omega⟩
    · exact ⟨fun hlt => (hdt.2 j x hxo).1 (by omega), fun hle => (hdt.2 j x hxo).2 (by omega)⟩

theorem Inv.finish {s : ThreadPool} (h : Inv s) {k : Nat}
    (hd : s.dtor = .joining k) (hw : s.workers[k]? = none) :
    Inv { s with dtor := .returned } where
  queue := h.queue
  ids := h.ids
  cell := h.cell
  held := h.held
  uniq := h.uniq
  done := h.done
  pending := h.pending
  alive := h.alive
  exited := h.exited
  dtor := by
    have hdt := h.dtor
    rw [hd] at hdt
    refine ⟨hdt.1, fun j x hx => (hdt.2 j x hx).1 ?_⟩
    have hk : s.workers.length ≤ k := List.getElem?_eq_none_iff.mp hw
    have hj : j < s.workers.length := (List.getElem?_eq_some_iff.mp hx).1
    omega

theorem Inv.step {s s' : ThreadPool} {a : Action} (h : Inv s) (hs : step a s = some s') :
    Inv s' := by
  cases a with
  | enqueue f =>
    rcases enqueue_cases hs with ⟨_, rfl⟩ | ⟨hst, rfl⟩
    · exact h
    · exact h.accept f hst
  | worker i =>
    obtain ⟨w, hw, hc⟩ := workerThread_cases hs
    rcases hc with ⟨hpc, hst, ht, rfl⟩ | ⟨t, rest, hpc, ht, rfl⟩ | ⟨t, p, hpc, hp, _, rfl⟩ |
      ⟨t, p, r, hpc, hp, hr, rfl⟩
    · exact h.terminate hw hpc hst ht
    · exact h.dequeue hw hpc ht
    · exact h.run hw hpc hp
    · have hnone := (h.held_cell hw hpc hp).2
      rw [hr] at hnone
      cases hnone
  | destroy =>
    rcases destroy_cases hs with ⟨hd, rfl⟩ | ⟨k, hd, hw, rfl⟩ | ⟨k, w, hd, hw, hj, rfl⟩ |
      ⟨k, w, hd, hw, _, hpc, rfl⟩
    · exact h.stopping hd
    · exact h.finish hd hw
    · have hjt := h.joinable hd hw
      rw [hj] at hjt
      cases hjt
    · exact h.join hd hw hpc

theorem Inv.exec {sched : List Action} {s s' : ThreadPool} (h : Inv s)
    (hs : exec sched s = some s') : Inv s' := by
  induction sched generalizing s with
  | nil =>
    simp only [Pool.exec] at hs
    cases hs
    exact h
  | cons a rest ih =>
    simp only [Pool.exec] at hs
    cases hst : Pool.step a s with
    | none => simp [hst] at hs
    | some s₁ =>
      simp only [hst] at hs
      exact ih (h.step hst) hs

theorem Inv.reachable {n : Nat} {s : ThreadPool} (h : Reachable (ThreadPool.init n) s) :
    Inv s := by
  obtain ⟨sched, hs⟩ := h
  exact (Inv.init n).exec hs

/-! ## Consequences of the invariant -/

theorem Inv.finished {s : ThreadPool} (h : Inv s) {t : TaskRef} (ht : t ∈ s.dequeued)
    (hfree : ∀ j, ¬ Holds s.workers j t) :
    ∃ p, s.heap[t]? = some p ∧ p.calls = 1 ∧ p.result = some p.body := by
  rcases h.done t ht with ⟨p, hp, hc⟩ | ⟨j, hj⟩
  · refine ⟨p, hp, hc, ?_⟩
    rw [(h.cell t p hp).2, hc]
    simp
  · exact absurd hj (hfree j)

theorem Inv.sorted {s : ThreadPool} (h : Inv s) :
    List.Pairwise (fun a b => a < b) (s.dequeued ++ s.tasks) := by
  rw [← h.queue, h.ids]
  exact List.pairwise_lt_range _

theorem step_workers_length {a : Action} {s s' : ThreadPool} (h : step a s = some s') :
    s'.workers.length = s.workers.length := by
  cases a with
  | enqueue f =>
    rcases enqueue_cases h with ⟨_, rfl⟩ | ⟨_, rfl⟩ <;> rfl
  | worker i =>
    obtain ⟨w, _, hc⟩ := workerThread_cases h
    rcases hc with ⟨_, _, _, rfl⟩ | ⟨t, rest, _, _, rfl⟩ | ⟨t, p, _, _, _, rfl⟩ |
      ⟨t, p, r, _, _, _, rfl⟩ <;> simp
  | destroy =>
    rcases destroy_cases h with ⟨_, rfl⟩ | ⟨k, _, _, rfl⟩ | ⟨k, w, _, _, _, rfl⟩ |
      ⟨k, w, _, _, _, _, rfl⟩ <;> simp

theorem exec_workers_length {sched : List Action} {s s' : ThreadPool}
    (h : exec sched s = some s') : s'.workers.length = s.workers.length := by
  induction sched generalizing s with
  | nil =>
    simp only [exec] at h
    cases h
    rfl
  | cons a rest ih =>
    simp only [exec] at h
    cases hst : step a s with
    | none => simp [hst] at h
    | some s₁ =>
      simp only [hst] at h
      rw [ih h, step_workers_length hst]

theorem step_stop {a : Action} {s s' : ThreadPool} (h : step a s = some s')
    (hs : s.stop = true) : s'.stop = true := by
  cases a with
  | enqueue f =>
    rcases enqueue_cases h with ⟨_, rfl⟩ | ⟨_, rfl⟩ <;> exact hs
  | worker i =>
    obtain ⟨w, _, hc⟩ := workerThread_cases h
    rcases hc with ⟨_, _, _, rfl⟩ | ⟨t, rest, _, _, rfl⟩ | ⟨t, p, _, _, _, rfl⟩ |
      ⟨t, p, r, _, _, _, rfl⟩ <;> exact hs
  | destroy =>
    rcases destroy_cases h with ⟨_, rfl⟩ | ⟨k, _, _, rfl⟩ | ⟨k, w, _, _, _, rfl⟩ |
      ⟨k, w, _, _, _, _, rfl⟩
    · rfl
    · exact hs
    · exact hs
    · exact hs

theorem exec_stop {sched : List Action} {s s' : ThreadPool} (h : exec sched s = some s')
    (hs : s.stop = true) : s'.stop = true := by
  induction sched generalizing s with
  | nil =>
    simp only [exec] at h
    cases h
    exact hs
  | cons a rest ih =>
    simp only [exec] at h
    cases hst : step a s with
    | none => simp [hst] at h
    | some s₁ =>
      simp only [hst] at h
      exact ih h (step_stop hst hs)

theorem step_terminated {a : Action} {s s' : ThreadPool} {i : Nat} {w : Worker}
    (h : step a s = some s') (hw : s.workers[i]? = some w) (hpc : w.pc = .terminated) :
    ∃ w', s'.workers[i]? = some w' ∧ w'.pc = .terminated := by
  cases a with
  | enqueue f =>
    rcases enqueue_cases h with ⟨_, rfl⟩ | ⟨_, rfl⟩ <;> exact ⟨w, hw, hpc⟩
  | worker j =>
    obtain ⟨x, hx, hc⟩ := workerThread_cases h
    have hji : i ≠ j := by
      rintro rfl
      rw [hw] at hx
      cases hx
      rcases hc with ⟨hq, _⟩ | ⟨t, rest, hq, _⟩ | ⟨t, p, hq, _⟩ | ⟨t, p, r, hq, _⟩ <;>
        · rw [hpc] at hq
          cases hq
    rcases hc with ⟨_, _, _, rfl⟩ | ⟨t, rest, _, _, rfl⟩ | ⟨t, p, _, _, _, rfl⟩ |
      ⟨t, p, r, _, _, _, rfl⟩ <;>
      exact ⟨w, (getElem?_set_iff hx).mpr (Or.inr ⟨hji, hw⟩), hpc⟩
  | destroy =>
    rcases destroy_cases h with ⟨_, rfl⟩ | ⟨k, _, _, rfl⟩ | ⟨k, x, _, _, _, rfl⟩ |
      ⟨k, x, _, hx, _, _, rfl⟩
    · exact ⟨w, hw, hpc⟩
    · exact ⟨w, hw, hpc⟩
    · exact ⟨w, hw, hpc⟩
    · by_cases hik : i = k
      · subst hik
        rw [hw] at hx
        cases hx
        exact ⟨_, (getElem?_set_iff hw).mpr (Or.inl ⟨rfl, rfl⟩), hpc⟩
      · exact ⟨w, (getElem?_set_iff hx).mpr (Or.inr ⟨hik, hw⟩), hpc⟩

/-! ## The steps a worker can take -/

theorem workerThread_blocked {s : ThreadPool} {i : Nat} {w : Worker}
    (hw : s.workers[i]? = some w) (hpc : w.pc = .waiting)
    (hs : s.stop = false) (ht : s.tasks = []) : s.workerThread i = none := by
  simp [ThreadPool.workerThread, hw, hpc, hs, ht, ThreadPool.workerThread.locked]

theorem workerThread_terminate {s : ThreadPool} {i : Nat} {w : Worker}
    (hw : s.workers[i]? = some w) (hpc : w.pc = .waiting)
    (hs : s.stop = true) (ht : s.tasks = []) :
    s.workerThread i =
      some { s with workers := s.workers.set i { w with pc := .terminated } } := by
  simp [ThreadPool.workerThread, hw, hpc, hs, ht, ThreadPool.workerThread.locked]

theorem workerThread_dequeue {s : ThreadPool} {i : Nat} {w : Worker} {t : TaskRef}
    {rest : List TaskRef} (hw : s.workers[i]? = some w) (hpc : w.pc = .waiting)
    (ht : s.tasks = t :: rest) :
    s.workerThread i =
      some { s with
        workers := s.workers.set i { w with pc := .running t }
        tasks := rest
        dequeued := s.dequeued ++ [t] } := by
  simp [ThreadPool.workerThread, hw, hpc, ht, ThreadPool.workerThread.locked]

theorem workerThread_run {s : ThreadPool} {i : Nat} {w : Worker} {t : TaskRef}
    {p : PackagedTask} (hw : s.workers[i]? = some w) (hpc : w.pc = .running t)
    (hp : s.heap[t]? = some p) (hr : p.result = none) :
    s.workerThread i =
      some { s with
        heap := s.heap.set t { p with result := some p.body, calls := p.calls + 1 }
        workers := s.workers.set i { w with pc := .waiting } } := by
  simp [ThreadPool.workerThread, hw, hpc, hp, hr, PackagedTask.invoke]

theorem workerThread_terminated {s : ThreadPool} {i : Nat} {w : Worker}
    (hw : s.workers[i]? = some w) (hpc : w.pc = .terminated) : s.workerThread i = none := by
  simp [ThreadPool.workerThread, hw, hpc]

/-! ## A single worker -/

theorem set_singleton {ws : List Worker} {i : Nat} {w x w' : Worker}
    (hw : ws[i]? = some w) (hx : ws.set i x = [w']) : ws = [w] ∧ x = w' := by
  have hlen : ws.length = 1 := by
    have hl := congrArg List.length hx
    simpa using hl
  obtain ⟨y, rfl⟩ := List.length_eq_one.mp hlen
  have hi : i < 1 := (List.getElem?_eq_some_iff.mp hw).1
  have hi0 : i = 0 := by omega
  subst hi0
  simp at hw hx
  exact ⟨by rw [hw], hx⟩

theorem serial_init (n : Nat) : Serial (ThreadPool.init n) := by
  intro w t hws hpc
  have hw : (ThreadPool.init n).workers[0]? = some w := by
    rw [hws]
    rfl
  rw [init_worker_get hw] at hpc
  cases hpc

theorem serial_step {a : Action} {s s' : ThreadPool} (h : Serial s)
    (hs : Pool.step a s = some s') : Serial s' := by
  cases a with
  | enqueue f =>
    rcases enqueue_cases hs with ⟨_, rfl⟩ | ⟨_, rfl⟩
    · exact h
    · exact h
  | worker i =>
    obtain ⟨w, hw, hc⟩ := workerThread_cases hs
    rcases hc with ⟨_, _, _, rfl⟩ | ⟨t, rest, _, _, rfl⟩ | ⟨t, p, _, _, _, rfl⟩ |
      ⟨t, p, r, _, _, _, rfl⟩
    · intro w' t' hws hpc
      obtain ⟨_, rfl⟩ := set_singleton hw hws
      cases hpc
    · intro w' t' hws hpc
      obtain ⟨_, rfl⟩ := set_singleton hw hws
      cases hpc
      exact ⟨s.dequeued, rfl⟩
    · intro w' t' hws hpc
      obtain ⟨_, rfl⟩ := set_singleton hw hws
      cases hpc
    · intro w' t' hws hpc
      obtain ⟨_, rfl⟩ := set_singleton hw hws
      cases hpc
  | destroy =>
    rcases destroy_cases hs with ⟨_, rfl⟩ | ⟨k, _, _, rfl⟩ | ⟨k, w, _, _, _, rfl⟩ |
      ⟨k, w, _, hw, _, _, rfl⟩
    · exact h
    · exact h
    · exact h
    · intro w' t' hws hpc
      obtain ⟨hone, rfl⟩ := set_singleton hw hws
      exact h w t' hone hpc

theorem serial_exec {sched : List Action} {s s' : ThreadPool} (h : Serial s)
    (hs : Pool.exec sched s = some s') : Serial s' := by
  induction sched generalizing s with
  | nil =>
    simp only [Pool.exec] at hs
    cases hs
    exact h
  | cons a rest ih =>
    simp only [Pool.exec] at hs
    cases hst : Pool.step a s with
    | none => simp [hst] at hs
    | some s₁ =>
      simp only [hst] at hs
      exact ih (serial_step h hst) hs

/-! ## Concrete runs -/

theorem mainFinal_reachable : Reachable (ThreadPool.init 4) mainFinal :=
  ⟨mainSchedule, by decide⟩

theorem failingOne_reachable : Reachable (ThreadPool.init 1) failingOne :=
  ⟨[.enqueue (.raised 7), .enqueue (.value 1), .worker 0], by decide⟩

theorem busyTwo_reachable : Reachable (ThreadPool.init 2) busyTwo :=
  ⟨[.enqueue (.value 0), .enqueue (.value 0), .enqueue (.value 0), .worker 1, .worker 0],
    by decide⟩

theorem serialOne_reachable : Reachable (ThreadPool.init 1) serialOne :=
  ⟨[.enqueue (.value 10), .enqueue (.value 11), .worker 0, .worker 0, .worker 0], by decide⟩

/-! ## The properties of the pool -/

/-- C1: for a pool constructed with `n ≥ 1` workers, in every reachable state in
which the destructor has returned every worker has left `workerThread`, the task
queue is empty, and every accepted task has been run exactly once, its result
stored in its shared state. -/
theorem shutdown_runs_every_task_once (n : Nat) (s₀ s : ThreadPool) (hn : 1 ≤ n)
    (h₀ : ThreadPool.new n = .ok s₀) (hr : Reachable s₀ s) (hd : s.dtor = .returned) :
    (∀ w ∈ s.workers, w.pc = .terminated) ∧ s.tasks = [] ∧
      ∀ t ∈ s.accepted, ∃ p, s.heap[t]? = some p ∧ p.calls = 1 ∧ p.result = some p.body := by
  have h0 : s₀ = ThreadPool.init n := by
    simp only [ThreadPool.new] at h₀
    exact (Except.ok.inj h₀).symm
  subst h0
  have hinv := Inv.reachable hr
  have hlen : s.workers.length = n := by
    obtain ⟨sched, hs⟩ := hr
    rw [exec_workers_length hs, init_workers, List.length_replicate]
  have hdt := hinv.dtor
  rw [hd] at hdt
  have hterm : ∀ (i : Nat) (w : Worker), s.workers[i]? = some w → w.pc = .terminated :=
    fun i w hw => (hdt.2 i w hw).1
  have hempty : s.tasks = [] := by
    have hpos : 0 < s.workers.length := by omega
    obtain ⟨w, hw⟩ : ∃ w, s.workers[0]? = some w :=
      ⟨s.workers[0], List.getElem?_eq_some_iff.mpr ⟨hpos, rfl⟩⟩
    exact (hinv.exited 0 w hw (hterm 0 w hw)).2
  refine ⟨?_, hempty, ?_⟩
  · intro w hw
    obtain ⟨i, hi⟩ := List.mem_iff_getElem?.mp hw
    exact hterm i w hi
  · intro t ht
    rw [hinv.queue, hempty, List.append_nil] at ht
    apply hinv.finished ht
    rintro j ⟨w, hw, hpc⟩
    rw [hterm j w hw] at hpc
    cases hpc

/-- Witness of C1: the run of `main`, four workers and eight tasks. -/
theorem shutdown_runs_every_task_once_witness :
    (∀ w ∈ mainFinal.workers, w.pc = .terminated) ∧ mainFinal.tasks = [] ∧
      ∀ t ∈ mainFinal.accepted,
        ∃ p, mainFinal.heap[t]? = some p ∧ p.calls = 1 ∧ p.result = some p.body :=
  shutdown_runs_every_task_once 4 (ThreadPool.init 4) mainFinal (by decide) rfl
    mainFinal_reachable rfl

/-- C2: once the stop flag is set it stays set in every state reachable
afterwards, and in each such state a call of `enqueue` throws the pool-stopped
error and leaves the pool, its queue included, exactly as it was. -/
theorem stop_is_permanent (s s' : ThreadPool) (f : Callable) (hs : s.stop = true)
    (hr : Reachable s s') :
    s'.stop = true ∧ s'.enqueue f = .error .stopped ∧ step (.enqueue f) s' = some s' := by
  obtain ⟨sched, hx⟩ := hr
  have hst := exec_stop hx hs
  refine ⟨hst, ?_, ?_⟩
  · simp [ThreadPool.enqueue, hst]
  · simp [step, ThreadPool.enqueue, hst]

/-- Witness of C2: a pool of one worker from the moment its destructor is
entered until the destructor has returned. -/
theorem stop_is_permanent_witness :
    shutDownOne.stop = true ∧ shutDownOne.enqueue (.value 3) = .error .stopped ∧
      step (.enqueue (.value 3)) shutDownOne = some shutDownOne :=
  stop_is_permanent stoppingOne shutDownOne (.value 3) rfl
    ⟨[.worker 0, .destroy, .destroy], by decide⟩

/-- C3: when a worker runs a task whose body throws `e`, the step succeeds, the
exception is stored in the shared state of the task so that `get` on its future
re-raises `e`, the worker is back at the top of its loop (neither terminated nor
crashed), and when a further task is queued the same worker dequeues it next. -/
theorem failing_task_is_recorded (n : Nat) (s : ThreadPool) (i : Nat) (w : Worker)
    (t : TaskRef) (p : PackagedTask) (e : Exn)
    (hr : Reachable (ThreadPool.init n) s) (hw : s.workers[i]? = some w)
    (hpc : w.pc = .running t) (hp : s.heap[t]? = some p) (hb : p.body = .raised e) :
    ∃ s', s.workerThread i = some s' ∧
      (∃ q, s'.heap[t]? = some q ∧ q.result = some (.raised e) ∧ q.calls = 1) ∧
      s'.get t = some (.error e) ∧
      (∃ w', s'.workers[i]? = some w' ∧ w'.pc = .waiting) ∧
      ∀ t' rest, s'.tasks = t' :: rest →
        ∃ s'', s'.workerThread i = some s'' ∧ s''.tasks = rest ∧
          ∃ w'', s''.workers[i]? = some w'' ∧ w''.pc = .running t' := by
  have hinv := Inv.reachable hr
  obtain ⟨hc, hnone⟩ := hinv.held_cell hw hpc hp
  refine ⟨_, workerThread_run hw hpc hp hnone, ?_, ?_, ?_, ?_⟩
  · exact ⟨_, (getElem?_set_iff hp).mpr (Or.inl ⟨rfl, rfl⟩), by simp [hb], by simp [hc]⟩
  · have hq : (s.heap.set t { p with result := some p.body, calls := p.calls + 1 })[t]? =
        some { p with result := some p.body, calls := p.calls + 1 } :=
      (getElem?_set_iff hp).mpr (Or.inl ⟨rfl, rfl⟩)
    unfold ThreadPool.get
    simp only [hq]
    rw [hb]
  · exact ⟨_, (getElem?_set_iff hw).mpr (Or.inl ⟨rfl, rfl⟩), rfl⟩
  · intro t' rest ht
    have hw' : (s.workers.set i { w with pc := .waiting })[i]? =
        some { w with pc := .waiting } :=
      (getElem?_set_iff hw).mpr (Or.inl ⟨rfl, rfl⟩)
    refine ⟨_, workerThread_dequeue hw' rfl ht, rfl, { w with pc := .running t' }, ?_, rfl⟩
    exact (getElem?_set_iff hw').mpr (Or.inl ⟨rfl, rfl⟩)

/-- Witness of C3: one worker with a throwing task in hand and a second task
queued. -/
theorem failing_task_is_recorded_witness :
    ∃ s', failingOne.workerThread 0 = some s' ∧
      (∃ q, s'.heap[0]? = some q ∧ q.result = some (.raised 7) ∧ q.calls = 1) ∧
      s'.get 0 = some (.error 7) ∧
      (∃ w', s'.workers[0]? = some w' ∧ w'.pc = .waiting) ∧
      ∀ t' rest, s'.tasks = t' :: rest →
        ∃ s'', s'.workerThread 0 = some s'' ∧ s''.tasks = rest ∧
          ∃ w'', s''.workers[0]? = some w'' ∧ w''.pc = .running t' :=
  failing_task_is_recorded 1 failingOne 0 { pc := .running 0, joinable := true } 0
    { body := .raised 7, result := none, calls := 0 } 7 failingOne_reachable rfl rfl rfl rfl

/-- C4: in every reachable state the sequence of tasks removed from the queue,
over all workers, followed by the tasks still queued, is the sequence of tasks
accepted by `enqueue`; so the dequeued sequence is an initial segment of the
accepted one. -/
theorem dequeue_order (n : Nat) (s : ThreadPool) (hr : Reachable (ThreadPool.init n) s) :
    s.accepted = s.dequeued ++ s.tasks ∧ s.dequeued <+: s.accepted :=
  ⟨(Inv.reachable hr).queue, ⟨s.tasks, (Inv.reachable hr).queue.symm⟩⟩

/-- Witness of C4: two workers, three accepted tasks, two of them dequeued. -/
theorem dequeue_order_witness :
    busyTwo.accepted = busyTwo.dequeued ++ busyTwo.tasks ∧
      busyTwo.dequeued <+: busyTwo.accepted :=
  dequeue_order 2 busyTwo busyTwo_reachable

/-- C5 fails as stated: the constructor called with zero workers returns a pool
(one without workers); it raises no error. -/
theorem new_zero_succeeds :
    ThreadPool.new 0 =
        .ok { workers := [], tasks := [], stop := false, heap := [], dtor := .notCalled,
              accepted := [], dequeued := [] } ∧
      ¬ ∃ e, ThreadPool.new 0 = .error e := by
  refine ⟨rfl, ?_⟩
  rintro ⟨e, he⟩
  simp [ThreadPool.new] at he

/-- C5 (amended): the constructor succeeds for every worker count, zero
included, and returns a pool with that many workers, each waiting and joinable,
an empty queue and the stop flag clear. -/
theorem new_succeeds (n : Nat) :
    ∃ s, ThreadPool.new n = .ok s ∧
      s.workers = List.replicate n { pc := .waiting, joinable := true } ∧
      s.tasks = [] ∧ s.stop = false ∧ s.dtor = .notCalled :=
  ⟨ThreadPool.init n, rfl, init_workers n, rfl, rfl, rfl⟩

/-- C7: while the stop flag is clear `enqueue` succeeds whatever the length of
the queue: it returns the future of the new packaged task, the queue becomes the
old queue with the new task appended at the tail, and the stop flag, the workers
and the destructor are untouched. -/
theorem enqueue_appends (s : ThreadPool) (f : Callable) (hs : s.stop = false) :
    ∃ s', s.enqueue f = .ok (s.heap.length, s') ∧ step (.enqueue f) s = some s' ∧
      s'.tasks = s.tasks ++ [s.heap.length] ∧ s'.tasks.length = s.tasks.length + 1 ∧
      s'.heap = s.heap ++ [{ body := f, result := none, calls := 0 }] ∧
      s'.stop = s.stop ∧ s'.workers = s.workers ∧ s'.dtor = s.dtor := by
  refine ⟨{ s with
      heap := s.heap ++ [{ body := f, result := none, calls := 0 }]
      tasks := s.tasks ++ [s.heap.length]
      accepted := s.accepted ++ [s.heap.length] }, ?_, ?_, rfl, ?_, rfl, rfl, rfl, rfl⟩
  · simp [ThreadPool.enqueue, hs]
  · simp [step, ThreadPool.enqueue, hs]
  · simp

/-- Witness of C7: a call of `enqueue` on a pool with one task already queued. -/
theorem enqueue_appends_witness :
    ∃ s', busyTwo.enqueue (.value 5) = .ok (busyTwo.heap.length, s') ∧
      step (.enqueue (.value 5)) busyTwo = some s' ∧
      s'.tasks = busyTwo.tasks ++ [busyTwo.heap.length] ∧
      s'.tasks.length = busyTwo.tasks.length + 1 ∧
      s'.heap = busyTwo.heap ++ [{ body := .value 5, result := none, calls := 0 }] ∧
      s'.stop = busyTwo.stop ∧ s'.workers = busyTwo.workers ∧ s'.dtor = busyTwo.dtor :=
  enqueue_appends busyTwo (.value 5) rfl

/-- C8: in a pool with exactly one worker, when task `a` was accepted before
task `b` and `b` has been started (dequeued by the worker) or has its result
recorded, then `a` has been dequeued, no worker has it in hand any more, and its
result is recorded after exactly one run. -/
theorem single_worker_serial (s : ThreadPool) (a b : TaskRef)
    (hr : Reachable (ThreadPool.init 1) s) (hab : List.Sublist [a, b] s.accepted)
    (hb : b ∈ s.dequeued ∨ ∃ q, s.heap[b]? = some q ∧ q.result ≠ none) :
    a ∈ s.dequeued ∧ (∀ i, ¬ Holds s.workers i a) ∧
      ∃ p, s.heap[a]? = some p ∧ p.calls = 1 ∧ p.result = some p.body := by
  have hinv := Inv.reachable hr
  have hser : Serial s := by
    obtain ⟨sched, hs⟩ := hr
    exact serial_exec (serial_init 1) hs
  have hlen : s.workers.length = 1 := by
    obtain ⟨sched, hs⟩ := hr
    rw [exec_workers_length hs, init_workers, List.length_replicate]
  have hsorted := hinv.sorted
  have hlt : a < b := by
    have hacc : List.Pairwise (fun x y => x < y) s.accepted := by
      rw [hinv.queue]
      exact hsorted
    have hpair := hacc.sublist hab
    simpa using hpair
  have hbq : b ∈ s.dequeued := by
    rcases hb with hb | ⟨q, hq, hne⟩
    · exact hb
    · have hbacc : b ∈ s.accepted := by
        rw [hinv.ids, List.mem_range]
        exact (List.getElem?_eq_some_iff.mp hq).1
      rw [hinv.queue] at hbacc
      rcases List.mem_append.mp hbacc with h | h
      · exact h
      · obtain ⟨q', hq', hc⟩ := hinv.pending b h
        rw [hq] at hq'
        cases hq'
        have hres := (hinv.cell b q hq).2
        rw [hc] at hres
        exact absurd hres hne
  have hsp := List.pairwise_append.mp hsorted
  have haq : a ∈ s.dequeued := by
    have haacc : a ∈ s.accepted := hab.subset (by simp)
    rw [hinv.queue] at haacc
    rcases List.mem_append.mp haacc with h | h
    · exact h
    · have hba : b < a := hsp.2.2 b hbq a h
      exact absurd hba (Nat.lt_asymm hlt)
  have hfree : ∀ j, ¬ Holds s.workers j a := by
    rintro j ⟨w, hw, hpc⟩
    obtain ⟨x, hx⟩ := List.length_eq_one.mp hlen
    have hwx : x = w := by
      rw [hx] at hw
      have hj : j < 1 := by simpa using (List.getElem?_eq_some_iff.mp hw).1
      have hj0 : j = 0 := by omega
      subst hj0
      simpa using hw
    subst hwx
    obtain ⟨l, hl⟩ := hser x a hx hpc
    have hp1 := hsp.1
    rw [hl] at hbq hp1
    have hp2 := List.pairwise_append.mp hp1
    rcases List.mem_append.mp hbq with h | h
    · have hba : b < a := hp2.2.2 b h a (by simp)
      exact Nat.lt_asymm hlt hba
    · rw [List.mem_singleton] at h
      rw [h] at hlt
      exact Nat.lt_irrefl a hlt
  exact ⟨haq, hfree, hinv.finished haq hfree⟩

/-- Witness of C8: one worker that has finished task `0` and holds task `1`. -/
theorem single_worker_serial_witness :
    0 ∈ serialOne.dequeued ∧ (∀ i, ¬ Holds serialOne.workers i 0) ∧
      ∃ p, serialOne.heap[0]? = some p ∧ p.calls = 1 ∧ p.result = some p.body :=
  single_worker_serial serialOne 0 1 serialOne_reachable (List.Sublist.refl [0, 1])
    (Or.inl (by decide))

/-- C9: the locked block of `workerThread` returns the terminal signal exactly
when the stop flag is set and the queue is empty, removes and returns the head
whenever the queue is non-empty (stop flag set or not), and blocks exactly when
the queue is empty and the stop flag is clear.  A waiting worker moves
accordingly, a worker step ends in `terminated` only through the terminal
signal, and a terminated worker has no step and stays terminated whatever the
other threads do. -/
theorem dequeue_step_spec (stop : Bool) (tasks : List TaskRef) (s : ThreadPool) (i : Nat)
    (w : Worker) (hw : s.workers[i]? = some w) :
    (ThreadPool.workerThread.locked stop tasks = .terminal ↔ stop = true ∧ tasks = []) ∧
    (∀ t rest, tasks = t :: rest →
      ThreadPool.workerThread.locked stop tasks = .task t rest) ∧
    (ThreadPool.workerThread.locked stop tasks = .blocked ↔ stop = false ∧ tasks = []) ∧
    (w.pc = .waiting →
      (s.workerThread i = none ↔ s.stop = false ∧ s.tasks = []) ∧
      (s.stop = true ∧ s.tasks = [] →
        s.workerThread i =
          some { s with workers := s.workers.set i { w with pc := .terminated } }) ∧
      (∀ t rest, s.tasks = t :: rest →
        s.workerThread i =
          some { s with
            workers := s.workers.set i { w with pc := .running t }
            tasks := rest
            dequeued := s.dequeued ++ [t] })) ∧
    (∀ s', s.workerThread i = some s' →
      ((∃ w', s'.workers[i]? = some w' ∧ w'.pc = .terminated) ↔
        (w.pc = .waiting ∧ s.stop = true ∧ s.tasks = []))) ∧
    (w.pc = .terminated →
      s.workerThread i = none ∧
      ∀ a s', step a s = some s' → ∃ w', s'.workers[i]? = some w' ∧ w'.pc = .terminated) := by
  refine ⟨?_, ?_, ?_, ?_, ?_, ?_⟩
  · cases stop <;> cases tasks <;> simp [ThreadPool.workerThread.locked]
  · rintro t rest rfl
    cases stop <;> simp [ThreadPool.workerThread.locked]
  · cases stop <;> cases tasks <;> simp [ThreadPool.workerThread.locked]
  · intro hpc
    refine ⟨⟨fun hnone => ?_, fun h => workerThread_blocked hw hpc h.1 h.2⟩,
      fun h => workerThread_terminate hw hpc h.1 h.2,
      fun t rest ht => workerThread_dequeue hw hpc ht⟩
    cases hst : s.stop <;> cases hts : s.tasks with
    | nil => first
      | exact ⟨rfl, rfl⟩
      | (rw [workerThread_terminate hw hpc hst hts] at hnone; cases hnone)
    | cons t rest =>
      rw [workerThread_dequeue hw hpc hts] at hnone
      cases hnone
  · intro s' hs'
    obtain ⟨x, hx, hc⟩ := workerThread_cases hs'
    rw [hw] at hx
    cases hx
    have hget : ∀ y : Worker, (s.workers.set i y)[i]? = some y := fun y =>
      (getElem?_set_iff hw).mpr (Or.inl ⟨rfl, rfl⟩)
    rcases hc with ⟨hpc, hst, ht, rfl⟩ | ⟨t, rest, hpc, ht, rfl⟩ | ⟨t, p, hpc, _, _, rfl⟩ |
      ⟨t, p, r, hpc, _, _, rfl⟩
    · exact ⟨fun _ => ⟨hpc, hst, ht⟩, fun _ => ⟨_, hget _, rfl⟩⟩
    · constructor
      · rintro ⟨w', hw', hterm⟩
        rw [show ({ s with
            workers := s.workers.set i { w with pc := .running t }
            tasks := rest
            dequeued := s.dequeued ++ [t] } : ThreadPool).workers =
          s.workers.set i { w with pc := .running t } from rfl, hget] at hw'
        cases hw'
        cases hterm
      · rintro ⟨_, _, hnil⟩
        rw [ht] at hnil
        cases hnil
    · constructor
      · rintro ⟨w', hw', hterm⟩
        rw [show ({ s with
            heap := s.heap.set t { p with result := some p.body, calls := p.calls + 1 }
            workers := s.workers.set i { w with pc := .waiting } } : ThreadPool).workers =
          s.workers.set i { w with pc := .waiting } from rfl, hget] at hw'
        cases hw'
        cases hterm
      · rintro ⟨hwait, _, _⟩
        rw [hpc] at hwait
        cases hwait
    · constructor
      · rintro ⟨w', hw', hterm⟩
        rw [show ({ s with workers := s.workers.set i { w with pc := .crashed } } :
            ThreadPool).workers = s.workers.set i { w with pc := .crashed } from rfl,
          hget] at hw'
        cases hw'
        cases hterm
      · rintro ⟨hwait, _, _⟩
        rw [hpc] at hwait
        cases hwait
  · intro hpc
    exact ⟨workerThread_terminated hw hpc, fun a s' hs' => step_terminated hs' hw hpc⟩

/-- Witness of C9: a waiting worker of a pool whose destructor has been
entered. -/
theorem dequeue_step_spec_witness :
    (ThreadPool.workerThread.locked true [] = .terminal ↔ true = true ∧ ([] : List TaskRef) = [])
      ∧ stoppingOne.workerThread 0 =
        some { stoppingOne with workers := [{ pc := .terminated, joinable := true }] } :=
  ⟨(dequeue_step_spec true [] stoppingOne 0 { pc := .waiting, joinable := true } rfl).1,
    (dequeue_step_spec true [] stoppingOne 0 { pc := .waiting, joinable := true }
      rfl).2.2.2.1 rfl |>.2.1 ⟨rfl, rfl⟩⟩

/-- C10: the locked block of `workerThread` never calls `front()` on an empty
queue: whenever it gets past the wait and past the `return`, the queue has a
head and that head is what is moved out and popped; so in every state of the
pool a waiting worker that moves is afterwards terminated or has the former head
of the queue in hand, never crashed. -/
theorem front_of_nonempty (stop : Bool) (tasks : List TaskRef) :
    ThreadPool.workerThread.locked stop tasks ≠ .emptyFront ∧
      (ThreadPool.workerThread.locked stop tasks ≠ .blocked →
        ThreadPool.workerThread.locked stop tasks ≠ .terminal →
        ∃ t, tasks.head? = some t ∧
          ThreadPool.workerThread.locked stop tasks = .task t tasks.tail) ∧
      ∀ (s s' : ThreadPool) (i : Nat) (w : Worker),
        s.workers[i]? = some w → w.pc = .waiting → s.workerThread i = some s' →
        ∃ w', s'.workers[i]? = some w' ∧
          (w'.pc = .terminated ∨ ∃ t, s.tasks.head? = some t ∧ w'.pc = .running t) := by
  refine ⟨?_, ?_, ?_⟩
  · cases stop <;> cases tasks <;> simp [ThreadPool.workerThread.locked]
  · cases stop <;> cases tasks <;> simp [ThreadPool.workerThread.locked]
  · intro s s' i w hw hpc hs'
    obtain ⟨x, hx, hc⟩ := workerThread_cases hs'
    rw [hw] at hx
    cases hx
    rcases hc with ⟨_, _, _, rfl⟩ | ⟨t, rest, _, ht, rfl⟩ | ⟨t, p, hrun, _⟩ | ⟨t, p, r, hrun, _⟩
    · exact ⟨_, (getElem?_set_iff hw).mpr (Or.inl ⟨rfl, rfl⟩), Or.inl rfl⟩
    · exact ⟨_, (getElem?_set_iff hw).mpr (Or.inl ⟨rfl, rfl⟩), Or.inr ⟨t, by simp [ht], rfl⟩⟩
    · rw [hpc] at hrun
      cases hrun
    · rw [hpc] at hrun
      cases hrun

end Pool
